import Mathlib

/-!
Shallow embedding of src/AVLSet.hpp : a template AVL set over a totally
ordered element type, with a constructor flag that can disable balancing.
Machine ints (node heights, the size counter) are modelled as Int; the
element type is an arbitrary LinearOrder, matching the template parameter
with its uses of ==, < and >.
-/

namespace AVL

/-- The node graph: AVLSet::Node has fields left, right, value, height,
with a null pointer modelled as nil. -/
inductive Tree (α : Type) where
  | nil : Tree α
  | node (left : Tree α) (right : Tree α) (value : α) (height : Int) : Tree α
deriving DecidableEq

/-- The enum Rotation {LL, LR, RL, RR}. -/
inductive Rotation where
  | LL | LR | RL | RR
deriving DecidableEq

variable {α : Type} [LinearOrder α]

/-- AVLSet::getHeight: nullptr has height -1, otherwise the cached field. -/
def getHeight : Tree α → Int
  | .nil => -1
  | .node _ _ _ h => h

/-- AVLSet::getNeededRotation.  The C++ dereferences t, then t->left or
t->right, without null checks; on those (unreachable from addR) inputs we
return an arbitrary rotation. -/
def getNeededRotation (t : Tree α) (element : α) : Rotation :=
  match t with
  | .nil => .LL
  | .node l r v _ =>
    if element < v then
      match l with
      | .nil => .LL
      | .node _ _ lv _ => if element < lv then .LL else .LR
    else
      match r with
      | .nil => .RR
      | .node _ _ rv _ => if element < rv then .RL else .RR

/-- AVLSet::rotLL.  The C++ dereferences t->left unconditionally; on the
(unreachable from addR) shapes where it is absent we return t unchanged. -/
def rotLL : Tree α → Tree α
  | .node (.node al ar av _) r v _ =>
      let tNew := Tree.node ar r v (1 + max (getHeight ar) (getHeight r))
      Tree.node al tNew av (1 + max (getHeight al) (getHeight tNew))
  | t => t

/-- AVLSet::rotLR (a = t->left, b = a->right, t2 = b->left, t3 = b->right). -/
def rotLR : Tree α → Tree α
  | .node (.node al (.node t2 t3 bv _) av _) r v _ =>
      let aNew := Tree.node al t2 av (1 + max (getHeight al) (getHeight t2))
      let tNew := Tree.node t3 r v (1 + max (getHeight t3) (getHeight r))
      Tree.node aNew tNew bv (1 + max (getHeight aNew) (getHeight tNew))
  | t => t

/-- AVLSet::rotRL (c = t->right, b = c->left, t2 = b->left, t3 = b->right). -/
def rotRL : Tree α → Tree α
  | .node l (.node (.node t2 t3 bv _) cr cv _) v _ =>
      let tNew := Tree.node l t2 v (1 + max (getHeight l) (getHeight t2))
      let cNew := Tree.node t3 cr cv (1 + max (getHeight t3) (getHeight cr))
      Tree.node tNew cNew bv (1 + max (getHeight tNew) (getHeight cNew))
  | t => t

/-- AVLSet::rotRR (b = t->right, t2 = b->left). -/
def rotRR : Tree α → Tree α
  | .node l (.node t2 br bv _) v _ =>
      let tNew := Tree.node l t2 v (1 + max (getHeight l) (getHeight t2))
      Tree.node tNew br bv (1 + max (getHeight tNew) (getHeight br))
  | t => t

/-- AVLSet::rotate: dispatch on the rotation case. -/
def rotate (t : Tree α) (rot : Rotation) : Tree α :=
  match rot with
  | .LL => rotLL t
  | .LR => rotLR t
  | .RL => rotRL t
  | .RR => rotRR t

/-- Lines 392-407 of AVLSet::addR: what happens to node (l, r, v, h) after
the recursive call replaced one child, with ex the by-reference exists flag
at that point.  If the element already existed nothing is touched; otherwise
the cached height is bumped when the recomputed height exceeds it, and a
rotation is applied when the node is out of balance and balancing is on. -/
def afterChild (sb : Bool) (element : α) (l r : Tree α) (v : α) (h : Int)
    (ex : Bool) : Tree α × Bool :=
  if ex = true then (.node l r v h, ex)
  else
    let newHeight : Int := 1 + max (getHeight l) (getHeight r)
    let h1 : Int := if h < newHeight then h + 1 else h
    if 1 < |getHeight l - getHeight r| ∧ sb = true then
      (rotate (.node l r v h1) (getNeededRotation (.node l r v h1) element), ex)
    else
      (.node l r v h1, ex)

/-- AVLSet::addR, with the by-reference bool exists threaded through as
state (the C++ only ever sets it to true, at the node equal to element). -/
def addR (sb : Bool) : Tree α → α → Bool → Tree α × Bool
  | .nil, element, ex => (.node .nil .nil element 0, ex)
  | .node l r v h, element, ex =>
    if v = element then (.node l r v h, true)
    else if element < v then
      let res := addR sb l element ex
      afterChild sb element res.1 r v h res.2
    else
      let res := addR sb r element ex
      afterChild sb element l res.1 v h res.2

/-- The AVLSet object: fields mirror the C++ members.  The size counter is
plain Int (overflow of the 32-bit counter is out of scope). -/
structure AVLSet (α : Type) where
  root : Tree α
  sz : Int
  shouldBalance : Bool
deriving DecidableEq

/-- The constructor AVLSet(bool shouldBalance). -/
def mkAVL (sb : Bool) : AVLSet α := ⟨.nil, 0, sb⟩

/-- AVLSet::add: run addR from the root with exists initialised to false,
then increment the size only when the element was newly inserted. -/
def add (s : AVLSet α) (element : α) : AVLSet α :=
  let res := addR s.shouldBalance s.root element false
  ⟨res.1, if res.2 = true then s.sz else s.sz + 1, s.shouldBalance⟩

/-- AVLSet::size (an int counter returned as unsigned; value-preserving for
every reachable state, where the counter is nonnegative). -/
def size (s : AVLSet α) : Int := s.sz

/-- AVLSet::height: getHeight of the root. -/
def height (s : AVLSet α) : Int := getHeight s.root

/-- The iterative loop of AVLSet::contains: stop on equality, go right when
element > value, otherwise go left; false on falling off the tree. -/
def containsT (element : α) : Tree α → Bool
  | .nil => false
  | .node l r v _ =>
    if v = element then true
    else if element > v then containsT element r
    else containsT element l

/-- AVLSet::contains. -/
def contains (s : AVLSet α) (element : α) : Bool := containsT element s.root

/-- AVLSet::inorderR: guarded on null, so it is total; the visit sequence
is returned as a list. -/
def inorderR : Tree α → List α
  | .nil => []
  | .node l r v _ => inorderR l ++ v :: inorderR r

/-- AVLSet::inorder. -/
def inorder (s : AVLSet α) : List α := inorderR s.root

/-- AVLSet::preorderR: the C++ dereferences t->value with no null check on
t itself (only the children are guarded), so calling it on an absent tree
is a null dereference, modelled as none; otherwise the visit sequence. -/
def preorderR : Tree α → Option (List α)
  | .nil => none
  | .node l r v _ => do
    let ls ← if l = Tree.nil then some [] else preorderR l
    let rs ← if r = Tree.nil then some [] else preorderR r
    some (v :: (ls ++ rs))

/-- AVLSet::preorder: calls preorderR on the root unconditionally. -/
def preorder (s : AVLSet α) : Option (List α) := preorderR s.root

/-- AVLSet::postorderR: same missing null check on t as preorderR. -/
def postorderR : Tree α → Option (List α)
  | .nil => none
  | .node l r v _ => do
    let ls ← if l = Tree.nil then some [] else postorderR l
    let rs ← if r = Tree.nil then some [] else postorderR r
    some (ls ++ rs ++ [v])

/-- AVLSet::postorder: calls postorderR on the root unconditionally. -/
def postorder (s : AVLSet α) : Option (List α) := postorderR s.root

/-- The move constructor AVLSet(AVLSet&&): the new object starts as
{nullptr, 0, false} and swaps all three members with the source.  Returns
(constructed object, source afterwards). -/
def moveConstruct (s : AVLSet α) : AVLSet α × AVLSet α :=
  (⟨s.root, s.sz, s.shouldBalance⟩, ⟨.nil, 0, false⟩)

/-- The move assignment operator=(AVLSet&&): swaps all three members of
destination and source.  Returns (destination afterwards, source
afterwards). -/
def moveAssign (dest src : AVLSet α) : AVLSet α × AVLSet α :=
  (⟨src.root, src.sz, src.shouldBalance⟩, ⟨dest.root, dest.sz, dest.shouldBalance⟩)

/-- The state reached from AVLSet(sb) by the given sequence of add calls. -/
def build (sb : Bool) (xs : List α) : AVLSet α := xs.foldl add (mkAVL sb)

/-- Modelled from the spec: plain binary-search-tree insertion with no
rotation ever applied — the behaviour the spec ascribes to an AVLSet whose
balancing is disabled ("acts like a binary search tree").  It is addR with
the rotation branch removed; used to state that a moved-from set behaves as
an unbalanced, non-rotating BST. -/
def afterChildPlain (l r : Tree α) (v : α) (h : Int) (ex : Bool) :
    Tree α × Bool :=
  if ex = true then (.node l r v h, ex)
  else
    let newHeight : Int := 1 + max (getHeight l) (getHeight r)
    let h1 : Int := if h < newHeight then h + 1 else h
    (.node l r v h1, ex)

/-- Modelled from the spec: see afterChildPlain. -/
def addPlain : Tree α → α → Bool → Tree α × Bool
  | .nil, element, ex => (.node .nil .nil element 0, ex)
  | .node l r v h, element, ex =>
    if v = element then (.node l r v h, true)
    else if element < v then
      let res := addPlain l element ex
      afterChildPlain res.1 r v h res.2
    else
      let res := addPlain r element ex
      afterChildPlain l res.1 v h res.2

/-! ## Specification predicates on the node graph -/

/-- x occurs among the values stored in the tree. -/
def memT (x : α) : Tree α → Prop
  | .nil => False
  | .node l r v _ => memT x l ∨ x = v ∨ memT x r

/-- Every stored value satisfies p. -/
def ForallTree (p : α → Prop) : Tree α → Prop
  | .nil => True
  | .node l r v _ => ForallTree p l ∧ p v ∧ ForallTree p r

/-- Binary-search-tree order with strictly smaller values left and strictly
greater values right. -/
def BST : Tree α → Prop
  | .nil => True
  | .node l r v _ =>
      ForallTree (fun y => y < v) l ∧ ForallTree (fun y => v < y) r ∧ BST l ∧ BST r

/-- Every cached height field equals 1 + max of the children's heights
(absent child = -1). -/
def HeightsOk : Tree α → Prop
  | .nil => True
  | .node l r _ h =>
      h = 1 + max (getHeight l) (getHeight r) ∧ HeightsOk l ∧ HeightsOk r

/-- AVL balance on the cached heights. -/
def Balanced : Tree α → Prop
  | .nil => True
  | .node l r _ _ =>
      |getHeight l - getHeight r| ≤ 1 ∧ Balanced l ∧ Balanced r

/-- The true (recomputed) height of the node graph, absent = -1. -/
def realHeight : Tree α → Int
  | .nil => -1
  | .node l r _ _ => 1 + max (realHeight l) (realHeight r)

/-- AVL balance stated on true subtree heights, children absent counting
as height -1. -/
def BalancedReal : Tree α → Prop
  | .nil => True
  | .node l r _ _ =>
      |realHeight l - realHeight r| ≤ 1 ∧ BalancedReal l ∧ BalancedReal r

/-! ## Basic lemmas -/

lemma getHeight_node (l r : Tree α) (v : α) (h : Int) :
    getHeight (Tree.node l r v h) = h := rfl

lemma heightsOk_ge : ∀ t : Tree α, HeightsOk t → -1 ≤ getHeight t := by
  intro t
  induction t with
  | nil => intro _; simp [getHeight]
  | node l r v h ihl ihr =>
    intro ht
    obtain ⟨hh, hl, hr⟩ := ht
    have h1 := ihl hl
    have h2 := ihr hr
    simp only [getHeight]
    omega

lemma exists_node_of_height (t : Tree α) (h0 : 0 ≤ getHeight t) :
    ∃ a b c d, t = Tree.node a b c d := by
  cases t with
  | nil => simp [getHeight] at h0
  | node a b c d => exact ⟨a, b, c, d, rfl⟩

lemma ne_nil_of_height (t : Tree α) (h0 : 0 ≤ getHeight t) : t ≠ Tree.nil := by
  intro h
  subst h
  simp [getHeight] at h0

lemma forallTree_mono {p q : α → Prop} :
    ∀ t : Tree α, ForallTree p t → (∀ a, p a → q a) → ForallTree q t := by
  intro t
  induction t with
  | nil => intro _ _; trivial
  | node l r v h ihl ihr =>
    rintro ⟨h1, h2, h3⟩ hpq
    exact ⟨ihl h1 hpq, hpq _ h2, ihr h3 hpq⟩

lemma forallTree_iff_mem {p : α → Prop} :
    ∀ t : Tree α, ForallTree p t ↔ ∀ y, memT y t → p y := by
  intro t
  induction t with
  | nil => simp [ForallTree, memT]
  | node l r v h ihl ihr =>
    simp only [ForallTree, memT, ihl, ihr]
    constructor
    · rintro ⟨a, b, c⟩ y (hy | rfl | hy)
      · exact a y hy
      · exact b
      · exact c y hy
    · intro hh
      exact ⟨fun y hy => hh y (Or.inl hy), hh v (Or.inr (Or.inl rfl)),
        fun y hy => hh y (Or.inr (Or.inr hy))⟩

lemma getHeight_eq_real : ∀ t : Tree α, HeightsOk t → getHeight t = realHeight t := by
  intro t
  induction t with
  | nil => intro _; rfl
  | node l r v h ihl ihr =>
    rintro ⟨hh, hl, hr⟩
    simp only [getHeight, realHeight]
    rw [hh, ihl hl, ihr hr]

lemma balancedReal_of : ∀ t : Tree α, HeightsOk t → Balanced t → BalancedReal t := by
  intro t
  induction t with
  | nil => intro _ _; trivial
  | node l r v h ihl ihr =>
    rintro ⟨hh, hl, hr⟩ ⟨hb, hbl, hbr⟩
    refine ⟨?_, ihl hl hbl, ihr hr hbr⟩
    rw [← getHeight_eq_real l hl, ← getHeight_eq_real r hr]
    exact hb

/-! ## Rotations preserve the stored values -/

lemma forall_rotLL {p : α → Prop} (t : Tree α) (h : ForallTree p t) :
    ForallTree p (rotLL t) := by
  rcases t with _ | ⟨_ | ⟨al, ar, av, ah⟩, r, v, hh⟩ <;>
    simp only [rotLL, ForallTree] at h ⊢ <;> tauto

lemma forall_rotLR {p : α → Prop} (t : Tree α) (h : ForallTree p t) :
    ForallTree p (rotLR t) := by
  rcases t with _ | ⟨_ | ⟨al, _ | ⟨t2, t3, bv, bh⟩, av, ah⟩, r, v, hh⟩ <;>
    simp only [rotLR, ForallTree] at h ⊢ <;> tauto

lemma forall_rotRL {p : α → Prop} (t : Tree α) (h : ForallTree p t) :
    ForallTree p (rotRL t) := by
  rcases t with _ | ⟨l, _ | ⟨_ | ⟨t2, t3, bv, bh⟩, cr, cv, ch⟩, v, hh⟩ <;>
    simp only [rotRL, ForallTree] at h ⊢ <;> tauto

lemma forall_rotRR {p : α → Prop} (t : Tree α) (h : ForallTree p t) :
    ForallTree p (rotRR t) := by
  rcases t with _ | ⟨l, _ | ⟨t2, br, bv, bh⟩, v, hh⟩ <;>
    simp only [rotRR, ForallTree] at h ⊢ <;> tauto

lemma forall_rotate {p : α → Prop} (t : Tree α) (rot : Rotation)
    (h : ForallTree p t) : ForallTree p (rotate t rot) := by
  cases rot with
  | LL => exact forall_rotLL t h
  | LR => exact forall_rotLR t h
  | RL => exact forall_rotRL t h
  | RR => exact forall_rotRR t h

lemma mem_rotLL (y : α) (t : Tree α) : memT y (rotLL t) ↔ memT y t := by
  rcases t with _ | ⟨_ | ⟨al, ar, av, ah⟩, r, v, hh⟩ <;>
    simp only [rotLL, memT] <;> tauto

lemma mem_rotLR (y : α) (t : Tree α) : memT y (rotLR t) ↔ memT y t := by
  rcases t with _ | ⟨_ | ⟨al, _ | ⟨t2, t3, bv, bh⟩, av, ah⟩, r, v, hh⟩ <;>
    simp only [rotLR, memT] <;> tauto

lemma mem_rotRL (y : α) (t : Tree α) : memT y (rotRL t) ↔ memT y t := by
  rcases t with _ | ⟨l, _ | ⟨_ | ⟨t2, t3, bv, bh⟩, cr, cv, ch⟩, v, hh⟩ <;>
    simp only [rotRL, memT] <;> tauto

lemma mem_rotRR (y : α) (t : Tree α) : memT y (rotRR t) ↔ memT y t := by
  rcases t with _ | ⟨l, _ | ⟨t2, br, bv, bh⟩, v, hh⟩ <;>
    simp only [rotRR, memT] <;> tauto

lemma mem_rotate (y : α) (t : Tree α) (rot : Rotation) :
    memT y (rotate t rot) ↔ memT y t := by
  cases rot with
  | LL => exact mem_rotLL y t
  | LR => exact mem_rotLR y t
  | RL => exact mem_rotRL y t
  | RR => exact mem_rotRR y t

/-! ## Insertion preserves bounds on values and adds exactly the element -/

lemma forall_afterChild {p : α → Prop} (sb : Bool) (x : α) (l r : Tree α)
    (v : α) (h : Int) (ex : Bool) (hl : ForallTree p l) (hv : p v)
    (hr : ForallTree p r) : ForallTree p (afterChild sb x l r v h ex).1 := by
  unfold afterChild
  split
  · exact ⟨hl, hv, hr⟩
  · split
    · exact forall_rotate _ _ ⟨hl, hv, hr⟩
    · exact ⟨hl, hv, hr⟩

lemma mem_afterChild (sb : Bool) (x : α) (l r : Tree α) (v : α) (h : Int)
    (ex : Bool) (y : α) :
    memT y (afterChild sb x l r v h ex).1 ↔ memT y l ∨ y = v ∨ memT y r := by
  unfold afterChild
  split
  · simp [memT]
  · split
    · simp only
      rw [mem_rotate]
      simp [memT]
    · simp [memT]

lemma ex_afterChild (sb : Bool) (x : α) (l r : Tree α) (v : α) (h : Int)
    (ex : Bool) : (afterChild sb x l r v h ex).2 = ex := by
  unfold afterChild
  split
  · rfl
  · split <;> rfl

lemma forall_addR {p : α → Prop} (sb : Bool) (x : α) (hpx : p x) :
    ∀ (t : Tree α) (ex : Bool), ForallTree p t → ForallTree p (addR sb t x ex).1 := by
  intro t
  induction t with
  | nil =>
    intro ex _
    exact ⟨trivial, hpx, trivial⟩
  | node l r v h ihl ihr =>
    rintro ex ⟨hfl, hfv, hfr⟩
    simp only [addR]
    by_cases hvx : v = x
    · simp only [if_pos hvx]
      exact ⟨hfl, hfv, hfr⟩
    · simp only [if_neg hvx]
      by_cases hlt : x < v
      · simp only [if_pos hlt]
        exact forall_afterChild sb x _ r v h _ (ihl ex hfl) hfv hfr
      · simp only [if_neg hlt]
        exact forall_afterChild sb x l _ v h _ hfl hfv (ihr ex hfr)

lemma addR_mem (sb : Bool) (x : α) :
    ∀ (t : Tree α) (ex : Bool) (y : α),
      memT y (addR sb t x ex).1 ↔ y = x ∨ memT y t := by
  intro t
  induction t with
  | nil =>
    intro ex y
    simp [addR, memT]
  | node l r v h ihl ihr =>
    intro ex y
    simp only [addR]
    by_cases hvx : v = x
    · subst hvx
      simp only [if_pos rfl]
      simp only [memT]
      tauto
    · simp only [if_neg hvx]
      by_cases hlt : x < v
      · simp only [if_pos hlt]
        rw [mem_afterChild, ihl]
        simp only [memT]
        tauto
      · simp only [if_neg hlt]
        rw [mem_afterChild, ihr]
        simp only [memT]
        tauto

/-! ## Correctness of the four rotations at the shapes where addR applies them -/

lemma rotLL_spec (ll lr r : Tree α) (lv v : α) (lh hh k : Int)
    (hkr : getHeight r = k) (hll : getHeight ll = k + 1) (hlr : getHeight lr = k)
    (hfll : ForallTree (fun y => y < lv) ll)
    (hflr : ForallTree (fun y => lv < y) lr)
    (hlrv : ForallTree (fun y => y < v) lr)
    (hlvv : lv < v)
    (hfr : ForallTree (fun y => v < y) r)
    (hBll : BST ll) (hBlr : BST lr) (hBr : BST r)
    (hHll : HeightsOk ll) (hHlr : HeightsOk lr) (hHr : HeightsOk r)
    (hBall : Balanced ll) (hBalr : Balanced lr) (hBar : Balanced r) :
    BST (rotLL (.node (.node ll lr lv lh) r v hh)) ∧
    HeightsOk (rotLL (.node (.node ll lr lv lh) r v hh)) ∧
    Balanced (rotLL (.node (.node ll lr lv lh) r v hh)) ∧
    getHeight (rotLL (.node (.node ll lr lv lh) r v hh)) = k + 2 := by
  have hmono : ForallTree (fun y => lv < y) r :=
    forallTree_mono r hfr (fun a ha => lt_trans hlvv ha)
  simp only [rotLL]
  refine ⟨⟨hfll, ⟨hflr, hlvv, hmono⟩, hBll, hlrv, hfr, hBlr, hBr⟩,
    ⟨rfl, hHll, rfl, hHlr, hHr⟩,
    ⟨?_, hBall, ?_, hBalr, hBar⟩, ?_⟩
  · try simp only [getHeight_node]
    rw [abs_le]
    omega
  · try simp only [getHeight_node]
    rw [abs_le]
    omega
  · try simp only [getHeight_node]
    omega

lemma rotLR_spec (ll t2 t3 r : Tree α) (lv bv v : α) (bh lh hh k : Int)
    (hkr : getHeight r = k) (hll : getHeight ll = k) (hbh : bh = k + 1)
    (hfll : ForallTree (fun y => y < lv) ll)
    (hfbgt : ForallTree (fun y => lv < y) (.node t2 t3 bv bh))
    (hfblt : ForallTree (fun y => y < v) (.node t2 t3 bv bh))
    (hBb : BST (.node t2 t3 bv bh))
    (hlvv : lv < v)
    (hfr : ForallTree (fun y => v < y) r)
    (hBll : BST ll) (hBr : BST r)
    (hHll : HeightsOk ll) (hHb : HeightsOk (.node t2 t3 bv bh)) (hHr : HeightsOk r)
    (hBall : Balanced ll) (hBalb : Balanced (.node t2 t3 bv bh)) (hBar : Balanced r) :
    BST (rotLR (.node (.node ll (.node t2 t3 bv bh) lv lh) r v hh)) ∧
    HeightsOk (rotLR (.node (.node ll (.node t2 t3 bv bh) lv lh) r v hh)) ∧
    Balanced (rotLR (.node (.node ll (.node t2 t3 bv bh) lv lh) r v hh)) ∧
    getHeight (rotLR (.node (.node ll (.node t2 t3 bv bh) lv lh) r v hh)) = k + 2 := by
  obtain ⟨hf2gt, hlvbv, hf3gt⟩ := hfbgt
  obtain ⟨hf2lt, hbvv, hf3lt⟩ := hfblt
  obtain ⟨hf2bv, hf3bv, hBt2, hBt3⟩ := hBb
  obtain ⟨hbEq, hHt2, hHt3⟩ := hHb
  obtain ⟨hbBal, hBalt2, hBalt3⟩ := hBalb
  try simp only [getHeight_node] at hbEq hbBal
  rw [abs_le] at hbBal
  have hmono1 : ForallTree (fun y => y < bv) ll :=
    forallTree_mono ll hfll (fun a ha => lt_trans ha hlvbv)
  have hmono2 : ForallTree (fun y => bv < y) r :=
    forallTree_mono r hfr (fun a ha => lt_trans hbvv ha)
  simp only [rotLR]
  refine ⟨⟨⟨hmono1, hlvbv, hf2bv⟩, ⟨hf3bv, hbvv, hmono2⟩,
    ⟨hfll, hf2gt, hBll, hBt2⟩, ⟨hf3lt, hfr, hBt3, hBr⟩⟩,
    ⟨rfl, ⟨rfl, hHll, hHt2⟩, rfl, hHt3, hHr⟩,
    ⟨?_, ⟨?_, hBall, hBalt2⟩, ?_, hBalt3, hBar⟩, ?_⟩
  · try simp only [getHeight_node]
    rw [abs_le]
    omega
  · try simp only [getHeight_node]
    rw [abs_le]
    omega
  · try simp only [getHeight_node]
    rw [abs_le]
    omega
  · try simp only [getHeight_node]
    omega

lemma rotRR_spec (l t2 br : Tree α) (v bv : α) (bh hh k : Int)
    (hkl : getHeight l = k) (ht2 : getHeight t2 = k) (hbr : getHeight br = k + 1)
    (hfl : ForallTree (fun y => y < v) l)
    (hfbgt : ForallTree (fun y => v < y) (.node t2 br bv bh))
    (hBb : BST (.node t2 br bv bh))
    (hBl : BST l)
    (hHl : HeightsOk l) (hHb : HeightsOk (.node t2 br bv bh))
    (hBall : Balanced l) (hBalb : Balanced (.node t2 br bv bh)) :
    BST (rotRR (.node l (.node t2 br bv bh) v hh)) ∧
    HeightsOk (rotRR (.node l (.node t2 br bv bh) v hh)) ∧
    Balanced (rotRR (.node l (.node t2 br bv bh) v hh)) ∧
    getHeight (rotRR (.node l (.node t2 br bv bh) v hh)) = k + 2 := by
  obtain ⟨hf2gt, hvbv, hfbrgt⟩ := hfbgt
  obtain ⟨hf2bv, hfbrbv, hBt2, hBbr⟩ := hBb
  obtain ⟨hbEq, hHt2, hHbr⟩ := hHb
  obtain ⟨hbBal, hBalt2, hBalbr⟩ := hBalb
  have hmono1 : ForallTree (fun y => y < bv) l :=
    forallTree_mono l hfl (fun a ha => lt_trans ha hvbv)
  simp only [rotRR]
  refine ⟨⟨⟨hmono1, hvbv, hf2bv⟩, hfbrbv, ⟨hfl, hf2gt, hBl, hBt2⟩, hBbr⟩,
    ⟨rfl, ⟨rfl, hHl, hHt2⟩, hHbr⟩,
    ⟨?_, ⟨?_, hBall, hBalt2⟩, hBalbr⟩, ?_⟩
  · try simp only [getHeight_node]
    rw [abs_le]
    omega
  · try simp only [getHeight_node]
    rw [abs_le]
    omega
  · try simp only [getHeight_node]
    omega

lemma rotRL_spec (l t2 t3 cr : Tree α) (v bv cv : α) (bh ch hh k : Int)
    (hkl : getHeight l = k) (hcr : getHeight cr = k) (hbh : bh = k + 1)
    (hfl : ForallTree (fun y => y < v) l)
    (hfcgt : ForallTree (fun y => v < y) (.node (.node t2 t3 bv bh) cr cv ch))
    (hBc : BST (.node (.node t2 t3 bv bh) cr cv ch))
    (hBl : BST l)
    (hHl : HeightsOk l) (hHc : HeightsOk (.node (.node t2 t3 bv bh) cr cv ch))
    (hBall : Balanced l) (hBalc : Balanced (.node (.node t2 t3 bv bh) cr cv ch)) :
    BST (rotRL (.node l (.node (.node t2 t3 bv bh) cr cv ch) v hh)) ∧
    HeightsOk (rotRL (.node l (.node (.node t2 t3 bv bh) cr cv ch) v hh)) ∧
    Balanced (rotRL (.node l (.node (.node t2 t3 bv bh) cr cv ch) v hh)) ∧
    getHeight (rotRL (.node l (.node (.node t2 t3 bv bh) cr cv ch) v hh)) = k + 2 := by
  obtain ⟨⟨hf2gt, hvbv, hf3gt⟩, hvcv, hfcrgt⟩ := hfcgt
  obtain ⟨⟨hf2cv, hbvcv, hf3cv⟩, hfcrcv, ⟨hf2bv, hf3bv, hBt2, hBt3⟩, hBcr⟩ := hBc
  obtain ⟨hcEq, ⟨hbEq, hHt2, hHt3⟩, hHcr⟩ := hHc
  obtain ⟨hcBal, ⟨hbBal, hBalt2, hBalt3⟩, hBalcr⟩ := hBalc
  try simp only [getHeight_node] at hbEq hbBal hcEq hcBal
  rw [abs_le] at hbBal
  have hmono1 : ForallTree (fun y => y < bv) l :=
    forallTree_mono l hfl (fun a ha => lt_trans ha hvbv)
  have hmono2 : ForallTree (fun y => bv < y) cr :=
    forallTree_mono cr hfcrcv (fun a ha => lt_trans hbvcv ha)
  simp only [rotRL]
  refine ⟨⟨⟨hmono1, hvbv, hf2bv⟩, ⟨hf3bv, hbvcv, hmono2⟩,
    ⟨hfl, hf2gt, hBl, hBt2⟩, ⟨hf3cv, hfcrcv, hBt3, hBcr⟩⟩,
    ⟨rfl, ⟨rfl, hHl, hHt2⟩, rfl, hHt3, hHcr⟩,
    ⟨?_, ⟨?_, hBall, hBalt2⟩, ?_, hBalt3, hBalcr⟩, ?_⟩
  · try simp only [getHeight_node]
    rw [abs_le]
    omega
  · try simp only [getHeight_node]
    rw [abs_le]
    omega
  · try simp only [getHeight_node]
    rw [abs_le]
    omega
  · try simp only [getHeight_node]
    omega

/-! ## The post-recursion step of addR, after insertion into the left child -/

lemma step_left (sb : Bool) (x : α) (l l2 r : Tree α) (v : α)
    (hBSTl2 : BST l2) (hBSTr : BST r)
    (hfl : ForallTree (fun y => y < v) l2)
    (hfr : ForallTree (fun y => v < y) r)
    (hHl2 : HeightsOk l2) (hHr : HeightsOk r)
    (hBl2 : sb = true → Balanced l2) (hBr : sb = true → Balanced r)
    (hlow : getHeight l ≤ getHeight l2)
    (hhigh : getHeight l2 ≤ getHeight l + 1)
    (hbal : sb = true → |getHeight l - getHeight r| ≤ 1)
    (hG : sb = true → getHeight l2 = getHeight l + 1 → l ≠ .nil →
      ∃ a b c d, l2 = Tree.node a b c d ∧ x ≠ c ∧
        (x < c → getHeight a - getHeight b = 1) ∧
        (c < x → getHeight a - getHeight b = -1))
    (hx : x < v) :
    (afterChild sb x l2 r v (1 + max (getHeight l) (getHeight r)) false).2 = false ∧
    BST (afterChild sb x l2 r v (1 + max (getHeight l) (getHeight r)) false).1 ∧
    HeightsOk (afterChild sb x l2 r v (1 + max (getHeight l) (getHeight r)) false).1 ∧
    (sb = true →
      Balanced (afterChild sb x l2 r v (1 + max (getHeight l) (getHeight r)) false).1) ∧
    1 + max (getHeight l) (getHeight r) ≤
      getHeight (afterChild sb x l2 r v (1 + max (getHeight l) (getHeight r)) false).1 ∧
    getHeight (afterChild sb x l2 r v (1 + max (getHeight l) (getHeight r)) false).1 ≤
      2 + max (getHeight l) (getHeight r) ∧
    (sb = true →
      getHeight (afterChild sb x l2 r v (1 + max (getHeight l) (getHeight r)) false).1 =
        2 + max (getHeight l) (getHeight r) →
      ∃ a b c d,
        (afterChild sb x l2 r v (1 + max (getHeight l) (getHeight r)) false).1 =
          Tree.node a b c d ∧ x ≠ c ∧
        (x < c → getHeight a - getHeight b = 1) ∧
        (c < x → getHeight a - getHeight b = -1)) := by
  have hl2ge : -1 ≤ getHeight l2 := heightsOk_ge l2 hHl2
  have hrge : -1 ≤ getHeight r := heightsOk_ge r hHr
  have hite : (if (1 + max (getHeight l) (getHeight r)) <
        (1 + max (getHeight l2) (getHeight r))
      then (1 + max (getHeight l) (getHeight r)) + 1
      else (1 + max (getHeight l) (getHeight r))) =
      1 + max (getHeight l2) (getHeight r) := by
    split <;> omega
  have hmain : afterChild sb x l2 r v (1 + max (getHeight l) (getHeight r)) false =
      if 1 < |getHeight l2 - getHeight r| ∧ sb = true
      then (rotate (.node l2 r v (1 + max (getHeight l2) (getHeight r)))
              (getNeededRotation
                (.node l2 r v (1 + max (getHeight l2) (getHeight r))) x), false)
      else (.node l2 r v (1 + max (getHeight l2) (getHeight r)), false) := by
    simp only [afterChild]
    rw [if_neg Bool.false_ne_true, hite]
  rw [hmain]
  by_cases hrot : 1 < |getHeight l2 - getHeight r| ∧ sb = true
  · obtain ⟨habs, hsb⟩ := hrot
    rw [if_pos ⟨habs, hsb⟩]
    have hbal' := hbal hsb
    rw [abs_le] at hbal'
    rw [lt_abs] at habs
    have hgrow : getHeight l2 = getHeight l + 1 := by omega
    have hll : getHeight l = getHeight r + 1 := by omega
    obtain ⟨a, b, c, d, hl2eq, hxc, hbf1, hbf2⟩ :=
      hG hsb hgrow (ne_nil_of_height l (by omega))
    subst hl2eq
    obtain ⟨hdEq, hHa, hHb⟩ := hHl2
    obtain ⟨hfac, hfcb, hBa, hBb⟩ := hBSTl2
    obtain ⟨hfav, hcv, hfbv⟩ := hfl
    obtain ⟨hbalab, hBala, hBalb⟩ := hBl2 hsb
    rw [abs_le] at hbalab
    have hd : d = getHeight r + 2 := by
      simp only [getHeight_node] at hgrow
      omega
    have hrotEq : getNeededRotation
        (.node (.node a b c d) r v
          (1 + max (getHeight (Tree.node a b c d)) (getHeight r))) x =
        if x < c then Rotation.LL else Rotation.LR := by
      simp only [getNeededRotation, if_pos hx]
    simp only [getHeight_node] at hgrow hlow hhigh
    rcases lt_trichotomy x c with hxc1 | hxc1 | hxc1
    · have hbf := hbf1 hxc1
      have hga : getHeight a = getHeight r + 1 := by omega
      have hgb : getHeight b = getHeight r := by omega
      rw [hrotEq, if_pos hxc1]
      simp only [rotate]
      obtain ⟨hB2, hH2, hBal2, hht2⟩ := rotLL_spec a b r c v d
        (1 + max (getHeight (Tree.node a b c d)) (getHeight r)) (getHeight r)
        rfl hga hgb hfac hfcb hfbv hcv hfr hBa hBb hBSTr hHa hHb hHr
        hBala hBalb (hBr hsb)
      refine ⟨trivial, hB2, hH2, fun _ => hBal2, ?_, ?_, ?_⟩
      · omega
      · omega
      · intro _ hgrow2
        exfalso
        omega
    · exact absurd hxc1 hxc
    · have hbf := hbf2 hxc1
      have hga : getHeight a = getHeight r := by omega
      have hgb : getHeight b = getHeight r + 1 := by omega
      rw [hrotEq, if_neg (lt_asymm hxc1)]
      simp only [rotate]
      obtain ⟨b1, b2, bv1, bd, hbeq⟩ := exists_node_of_height b (by omega)
      subst hbeq
      have hbd : bd = getHeight r + 1 := by
        simp only [getHeight_node] at hgb
        omega
      obtain ⟨hB2, hH2, hBal2, hht2⟩ := rotLR_spec a b1 b2 r c bv1 v bd d
        (1 + max (getHeight (Tree.node a (Tree.node b1 b2 bv1 bd) c d)) (getHeight r))
        (getHeight r) rfl (by omega) hbd hfac hfcb hfbv hBb hcv hfr hBa hBSTr
        hHa hHb hHr hBala hBalb (hBr hsb)
      refine ⟨trivial, hB2, hH2, fun _ => hBal2, ?_, ?_, ?_⟩
      · omega
      · omega
      · intro _ hgrow2
        exfalso
        omega
  · rw [if_neg hrot]
    refine ⟨rfl, ⟨hfl, hfr, hBSTl2, hBSTr⟩, ⟨rfl, hHl2, hHr⟩, ?_, ?_, ?_, ?_⟩
    · intro hsb
      have h1 : ¬ 1 < |getHeight l2 - getHeight r| := fun hgt => hrot ⟨hgt, hsb⟩
      exact ⟨by omega, hBl2 hsb, hBr hsb⟩
    · simp only [getHeight_node]
      omega
    · simp only [getHeight_node]
      omega
    · intro hsb hgrow2
      have h1 : ¬ 1 < |getHeight l2 - getHeight r| := fun hgt => hrot ⟨hgt, hsb⟩
      have habs2 : |getHeight l2 - getHeight r| ≤ 1 := by omega
      rw [abs_le] at habs2
      simp only [getHeight_node] at hgrow2
      exact ⟨l2, r, v, 1 + max (getHeight l2) (getHeight r), rfl, ne_of_lt hx,
        fun _ => by omega, fun hvx2 => absurd hvx2 (lt_asymm hx)⟩

/-! ## The post-recursion step of addR, after insertion into the right child -/

lemma step_right (sb : Bool) (x : α) (l r r2 : Tree α) (v : α)
    (hBSTl : BST l) (hBSTr2 : BST r2)
    (hfl : ForallTree (fun y => y < v) l)
    (hfr : ForallTree (fun y => v < y) r2)
    (hHl : HeightsOk l) (hHr2 : HeightsOk r2)
    (hBl : sb = true → Balanced l) (hBr2 : sb = true → Balanced r2)
    (hlow : getHeight r ≤ getHeight r2)
    (hhigh : getHeight r2 ≤ getHeight r + 1)
    (hbal : sb = true → |getHeight l - getHeight r| ≤ 1)
    (hG : sb = true → getHeight r2 = getHeight r + 1 → r ≠ .nil →
      ∃ a b c d, r2 = Tree.node a b c d ∧ x ≠ c ∧
        (x < c → getHeight a - getHeight b = 1) ∧
        (c < x → getHeight a - getHeight b = -1))
    (hx : v < x) :
    (afterChild sb x l r2 v (1 + max (getHeight l) (getHeight r)) false).2 = false ∧
    BST (afterChild sb x l r2 v (1 + max (getHeight l) (getHeight r)) false).1 ∧
    HeightsOk (afterChild sb x l r2 v (1 + max (getHeight l) (getHeight r)) false).1 ∧
    (sb = true →
      Balanced (afterChild sb x l r2 v (1 + max (getHeight l) (getHeight r)) false).1) ∧
    1 + max (getHeight l) (getHeight r) ≤
      getHeight (afterChild sb x l r2 v (1 + max (getHeight l) (getHeight r)) false).1 ∧
    getHeight (afterChild sb x l r2 v (1 + max (getHeight l) (getHeight r)) false).1 ≤
      2 + max (getHeight l) (getHeight r) ∧
    (sb = true →
      getHeight (afterChild sb x l r2 v (1 + max (getHeight l) (getHeight r)) false).1 =
        2 + max (getHeight l) (getHeight r) →
      ∃ a b c d,
        (afterChild sb x l r2 v (1 + max (getHeight l) (getHeight r)) false).1 =
          Tree.node a b c d ∧ x ≠ c ∧
        (x < c → getHeight a - getHeight b = 1) ∧
        (c < x → getHeight a - getHeight b = -1)) := by
  have hlge : -1 ≤ getHeight l := heightsOk_ge l hHl
  have hr2ge : -1 ≤ getHeight r2 := heightsOk_ge r2 hHr2
  have hite : (if (1 + max (getHeight l) (getHeight r)) <
        (1 + max (getHeight l) (getHeight r2))
      then (1 + max (getHeight l) (getHeight r)) + 1
      else (1 + max (getHeight l) (getHeight r))) =
      1 + max (getHeight l) (getHeight r2) := by
    split <;> omega
  have hmain : afterChild sb x l r2 v (1 + max (getHeight l) (getHeight r)) false =
      if 1 < |getHeight l - getHeight r2| ∧ sb = true
      then (rotate (.node l r2 v (1 + max (getHeight l) (getHeight r2)))
              (getNeededRotation
                (.node l r2 v (1 + max (getHeight l) (getHeight r2))) x), false)
      else (.node l r2 v (1 + max (getHeight l) (getHeight r2)), false) := by
    simp only [afterChild]
    rw [if_neg Bool.false_ne_true, hite]
  rw [hmain]
  by_cases hrot : 1 < |getHeight l - getHeight r2| ∧ sb = true
  · obtain ⟨habs, hsb⟩ := hrot
    rw [if_pos ⟨habs, hsb⟩]
    have hbal' := hbal hsb
    rw [abs_le] at hbal'
    rw [lt_abs] at habs
    have hgrow : getHeight r2 = getHeight r + 1 := by omega
    have hrr : getHeight r = getHeight l + 1 := by omega
    obtain ⟨a, b, c, d, hr2eq, hxc, hbf1, hbf2⟩ :=
      hG hsb hgrow (ne_nil_of_height r (by omega))
    subst hr2eq
    obtain ⟨hdEq, hHa, hHb⟩ := hHr2
    obtain ⟨hfac, hfcb, hBa, hBb⟩ := hBSTr2
    obtain ⟨hfav, hcv, hfbv⟩ := hfr
    obtain ⟨hbalab, hBala, hBalb⟩ := hBr2 hsb
    rw [abs_le] at hbalab
    have hd : d = getHeight l + 2 := by
      simp only [getHeight_node] at hgrow
      omega
    have hrotEq : getNeededRotation
        (.node l (.node a b c d) v
          (1 + max (getHeight l) (getHeight (Tree.node a b c d)))) x =
        if x < c then Rotation.RL else Rotation.RR := by
      simp only [getNeededRotation, if_neg (lt_asymm hx)]
    simp only [getHeight_node] at hgrow hlow hhigh
    rcases lt_trichotomy x c with hxc1 | hxc1 | hxc1
    · have hbf := hbf1 hxc1
      have hga : getHeight a = getHeight l + 1 := by omega
      have hgb : getHeight b = getHeight l := by omega
      rw [hrotEq, if_pos hxc1]
      simp only [rotate]
      obtain ⟨a1, a2, av, ad, haeq⟩ := exists_node_of_height a (by omega)
      subst haeq
      have had : ad = getHeight l + 1 := by
        simp only [getHeight_node] at hga
        omega
      obtain ⟨hB2, hH2, hBal2, hht2⟩ := rotRL_spec l a1 a2 b v av c ad d
        (1 + max (getHeight l)
          (getHeight (Tree.node (Tree.node a1 a2 av ad) b c d)))
        (getHeight l) rfl (by omega) had hfl
        ⟨hfav, hcv, hfbv⟩ ⟨hfac, hfcb, hBa, hBb⟩ hBSTl
        hHl ⟨hdEq, hHa, hHb⟩ (hBl hsb)
        ⟨by rw [abs_le]; omega, hBala, hBalb⟩
      refine ⟨trivial, hB2, hH2, fun _ => hBal2, ?_, ?_, ?_⟩
      · omega
      · omega
      · intro _ hgrow2
        exfalso
        omega
    · exact absurd hxc1 hxc
    · have hbf := hbf2 hxc1
      have hga : getHeight a = getHeight l := by omega
      have hgb : getHeight b = getHeight l + 1 := by omega
      rw [hrotEq, if_neg (lt_asymm hxc1)]
      simp only [rotate]
      obtain ⟨hB2, hH2, hBal2, hht2⟩ := rotRR_spec l a b v c d
        (1 + max (getHeight l) (getHeight (Tree.node a b c d)))
        (getHeight l) rfl (by omega) (by omega) hfl
        ⟨hfav, hcv, hfbv⟩ ⟨hfac, hfcb, hBa, hBb⟩ hBSTl hHl
        ⟨hdEq, hHa, hHb⟩ (hBl hsb)
        ⟨by rw [abs_le]; omega, hBala, hBalb⟩
      refine ⟨trivial, hB2, hH2, fun _ => hBal2, ?_, ?_, ?_⟩
      · omega
      · omega
      · intro _ hgrow2
        exfalso
        omega
  · rw [if_neg hrot]
    refine ⟨rfl, ⟨hfl, hfr, hBSTl, hBSTr2⟩, ⟨rfl, hHl, hHr2⟩, ?_, ?_, ?_, ?_⟩
    · intro hsb
      have h1 : ¬ 1 < |getHeight l - getHeight r2| := fun hgt => hrot ⟨hgt, hsb⟩
      exact ⟨by omega, hBl hsb, hBr2 hsb⟩
    · simp only [getHeight_node]
      omega
    · simp only [getHeight_node]
      omega
    · intro hsb hgrow2
      have h1 : ¬ 1 < |getHeight l - getHeight r2| := fun hgt => hrot ⟨hgt, hsb⟩
      have habs2 : |getHeight l - getHeight r2| ≤ 1 := by omega
      rw [abs_le] at habs2
      simp only [getHeight_node] at hgrow2
      exact ⟨l, r2, v, 1 + max (getHeight l) (getHeight r2), rfl, ne_of_gt hx,
        fun hvx2 => absurd hvx2 (lt_asymm hx), fun _ => by omega⟩

/-! ## The main inductive invariant of addR -/

theorem addR_main (sb : Bool) (x : α) :
    ∀ t : Tree α, BST t → HeightsOk t → (sb = true → Balanced t) →
      BST (addR sb t x false).1 ∧
      HeightsOk (addR sb t x false).1 ∧
      (sb = true → Balanced (addR sb t x false).1) ∧
      getHeight t ≤ getHeight (addR sb t x false).1 ∧
      getHeight (addR sb t x false).1 ≤ getHeight t + 1 ∧
      ((addR sb t x false).2 = true ↔ memT x t) ∧
      ((addR sb t x false).2 = true → (addR sb t x false).1 = t) ∧
      (sb = true → (addR sb t x false).2 = false →
        getHeight (addR sb t x false).1 = getHeight t + 1 → t ≠ .nil →
        ∃ a b c d, (addR sb t x false).1 = Tree.node a b c d ∧ x ≠ c ∧
          (x < c → getHeight a - getHeight b = 1) ∧
          (c < x → getHeight a - getHeight b = -1)) := by
  intro t
  induction t with
  | nil =>
    intro _ _ _
    simp only [addR]
    refine ⟨⟨trivial, trivial, trivial, trivial⟩,
      ⟨by simp [getHeight], trivial, trivial⟩,
      fun _ => ⟨by simp [getHeight], trivial, trivial⟩,
      by norm_num [getHeight, getHeight_node],
      by norm_num [getHeight, getHeight_node],
      by simp [memT],
      by simp,
      fun _ _ _ hn => absurd rfl hn⟩
  | node l r v h ihl ihr =>
    intro hBST hH hBal
    obtain ⟨hfl, hfr, hBl, hBr⟩ := hBST
    obtain ⟨hh, hHl, hHr⟩ := hH
    have hBall : sb = true → Balanced l := fun hsb => (hBal hsb).2.1
    have hBalr : sb = true → Balanced r := fun hsb => (hBal hsb).2.2
    have hbalvr : sb = true → |getHeight l - getHeight r| ≤ 1 :=
      fun hsb => (hBal hsb).1
    simp only [addR]
    by_cases hvx : v = x
    · rw [if_pos hvx]
      refine ⟨⟨hfl, hfr, hBl, hBr⟩, ⟨hh, hHl, hHr⟩, hBal, le_refl _,
        by change getHeight (Tree.node l r v h) ≤ getHeight (Tree.node l r v h) + 1; omega,
        ⟨fun _ => Or.inr (Or.inl hvx.symm), fun _ => rfl⟩, fun _ => rfl, ?_⟩
      intro _ h2
      simp at h2
    · rw [if_neg hvx]
      by_cases hlt : x < v
      · rw [if_pos hlt]
        obtain ⟨ihB, ihH, ihBal, ihlow, ihhigh, ihiff, ihunch, ihG⟩ :=
          ihl hBl hHl hBall
        cases hres2 : (addR sb l x false).2 with
        | true =>
          have hunch : (addR sb l x false).1 = l := ihunch hres2
          have hmem : memT x l := ihiff.mp hres2
          rw [hunch]
          have hAC : afterChild sb x l r v h true = (.node l r v h, true) := by
            simp [afterChild]
          rw [hAC]
          refine ⟨⟨hfl, hfr, hBl, hBr⟩, ⟨hh, hHl, hHr⟩, hBal, le_refl _,
            by change getHeight (Tree.node l r v h) ≤ getHeight (Tree.node l r v h) + 1; omega,
            ⟨fun _ => Or.inl hmem, fun _ => rfl⟩, fun _ => rfl, ?_⟩
          intro _ h2
          simp at h2
        | false =>
          rw [hh]
          have hfl2 : ForallTree (fun y => y < v) (addR sb l x false).1 :=
            @forall_addR _ _ (fun y => y < v) sb x hlt l false hfl
          obtain ⟨s1, s2, s3, s4, s5, s6, s7⟩ :=
            step_left sb x l (addR sb l x false).1 r v ihB hBr hfl2 hfr ihH hHr
              ihBal hBalr ihlow ihhigh hbalvr
              (fun hsb hgrow hnil => ihG hsb hres2 hgrow hnil) hlt
          have hnl : ¬ memT x l := fun hm => by
            have h2 := ihiff.mpr hm
            rw [hres2] at h2
            exact Bool.false_ne_true h2
          have hnr : ¬ memT x r := fun hm =>
            absurd ((forallTree_iff_mem r).mp hfr x hm) (lt_asymm hlt)
          refine ⟨s2, s3, s4, ?_, ?_, ?_, ?_, ?_⟩
          · simp only [getHeight_node]
            exact s5
          · simp only [getHeight_node]
            omega
          · rw [s1]
            constructor
            · intro hc
              exact absurd hc Bool.false_ne_true
            · rintro (hm | heq | hm)
              · exact absurd hm hnl
              · exact absurd heq.symm hvx
              · exact absurd hm hnr
          · rw [s1]
            intro hc
            exact absurd hc Bool.false_ne_true
          · intro hsb _ hgrow _
            simp only [getHeight_node] at hgrow
            exact s7 hsb (by omega)
      · rw [if_neg hlt]
        have hgt : v < x := lt_of_le_of_ne (not_lt.mp hlt) hvx
        obtain ⟨ihB, ihH, ihBal, ihlow, ihhigh, ihiff, ihunch, ihG⟩ :=
          ihr hBr hHr hBalr
        cases hres2 : (addR sb r x false).2 with
        | true =>
          have hunch : (addR sb r x false).1 = r := ihunch hres2
          have hmem : memT x r := ihiff.mp hres2
          rw [hunch]
          have hAC : afterChild sb x l r v h true = (.node l r v h, true) := by
            simp [afterChild]
          rw [hAC]
          refine ⟨⟨hfl, hfr, hBl, hBr⟩, ⟨hh, hHl, hHr⟩, hBal, le_refl _,
            by change getHeight (Tree.node l r v h) ≤ getHeight (Tree.node l r v h) + 1; omega,
            ⟨fun _ => Or.inr (Or.inr hmem), fun _ => rfl⟩, fun _ => rfl, ?_⟩
          intro _ h2
          simp at h2
        | false =>
          rw [hh]
          have hfr2 : ForallTree (fun y => v < y) (addR sb r x false).1 :=
            @forall_addR _ _ (fun y => v < y) sb x hgt r false hfr
          obtain ⟨s1, s2, s3, s4, s5, s6, s7⟩ :=
            step_right sb x l r (addR sb r x false).1 v hBl ihB hfl hfr2 hHl ihH
              hBall ihBal ihlow ihhigh hbalvr
              (fun hsb hgrow hnil => ihG hsb hres2 hgrow hnil) hgt
          have hnr : ¬ memT x r := fun hm => by
            have h2 := ihiff.mpr hm
            rw [hres2] at h2
            exact Bool.false_ne_true h2
          have hnl : ¬ memT x l := fun hm =>
            absurd ((forallTree_iff_mem l).mp hfl x hm) (lt_asymm hgt)
          refine ⟨s2, s3, s4, ?_, ?_, ?_, ?_, ?_⟩
          · simp only [getHeight_node]
            exact s5
          · simp only [getHeight_node]
            omega
          · rw [s1]
            constructor
            · intro hc
              exact absurd hc Bool.false_ne_true
            · rintro (hm | heq | hm)
              · exact absurd hm hnl
              · exact absurd heq.symm hvx
              · exact absurd hm hnr
          · rw [s1]
            intro hc
            exact absurd hc Bool.false_ne_true
          · intro hsb _ hgrow _
            simp only [getHeight_node] at hgrow
            exact s7 hsb (by omega)

/-! ## addR leaves the tree untouched when the element is already present -/

lemma getHeight_nil : getHeight (Tree.nil : Tree α) = -1 := rfl

lemma addR_found (sb : Bool) (x : α) :
    ∀ t : Tree α, BST t → memT x t → addR sb t x false = (t, true) := by
  intro t
  induction t with
  | nil => intro _ hm; exact hm.elim
  | node l r v h ihl ihr =>
    rintro ⟨hfl, hfr, hBl, hBr⟩ hm
    simp only [addR]
    by_cases hvx : v = x
    · rw [if_pos hvx]
    · rw [if_neg hvx]
      rcases hm with hm | heq | hm
      · have hlt : x < v := (forallTree_iff_mem l).mp hfl x hm
        rw [if_pos hlt, ihl hBl hm]
        simp [afterChild]
      · exact absurd heq.symm hvx
      · have hgt : v < x := (forallTree_iff_mem r).mp hfr x hm
        rw [if_neg (lt_asymm hgt), ihr hBr hm]
        simp [afterChild]

/-! ## contains finds exactly the stored values on a search tree -/

lemma containsT_iff (x : α) :
    ∀ t : Tree α, BST t → (containsT x t = true ↔ memT x t) := by
  intro t
  induction t with
  | nil => intro _; simp [containsT, memT]
  | node l r v h ihl ihr =>
    rintro ⟨hfl, hfr, hBl, hBr⟩
    simp only [containsT]
    by_cases hvx : v = x
    · rw [if_pos hvx]
      simp only [memT, true_iff]
      exact Or.inr (Or.inl hvx.symm)
    · rw [if_neg hvx]
      by_cases hgt : x > v
      · rw [if_pos hgt, ihr hBr]
        have hnl : ¬ memT x l := fun hm =>
          absurd ((forallTree_iff_mem l).mp hfl x hm) (lt_asymm hgt)
        simp only [memT]
        constructor
        · exact fun hm => Or.inr (Or.inr hm)
        · rintro (hm | heq | hm)
          · exact absurd hm hnl
          · exact absurd heq.symm hvx
          · exact hm
      · rw [if_neg hgt, ihl hBl]
        have hlt : x < v := lt_of_le_of_ne (not_lt.mp hgt) (fun heq => hvx heq.symm)
        have hnr : ¬ memT x r := fun hm =>
          absurd ((forallTree_iff_mem r).mp hfr x hm) (lt_asymm hlt)
        simp only [memT]
        constructor
        · exact fun hm => Or.inl hm
        · rintro (hm | heq | hm)
          · exact hm
          · exact absurd heq.symm hvx
          · exact absurd hm hnr

/-! ## inorder lists the stored values in strictly increasing order -/

lemma mem_inorderR (y : α) : ∀ t : Tree α, y ∈ inorderR t ↔ memT y t := by
  intro t
  induction t with
  | nil => simp [inorderR, memT]
  | node l r v h ihl ihr => simp [inorderR, memT, ihl, ihr]

lemma sorted_inorderR :
    ∀ t : Tree α, BST t → (inorderR t).Sorted (fun a b => a < b) := by
  intro t
  induction t with
  | nil => intro _; simp [inorderR]
  | node l r v h ihl ihr =>
    rintro ⟨hfl, hfr, hBl, hBr⟩
    simp only [inorderR]
    show List.Pairwise (fun a b => a < b) (inorderR l ++ v :: inorderR r)
    rw [List.pairwise_append]
    refine ⟨ihl hBl, ?_, ?_⟩
    · rw [List.pairwise_cons]
      refine ⟨?_, ihr hBr⟩
      intro b hb
      exact (forallTree_iff_mem r).mp hfr b ((mem_inorderR b r).mp hb)
    · intro a ha b hb
      have ha2 : a < v := (forallTree_iff_mem l).mp hfl a ((mem_inorderR a l).mp ha)
      rcases List.mem_cons.mp hb with rfl | hb2
      · exact ha2
      · exact lt_trans ha2 ((forallTree_iff_mem r).mp hfr b ((mem_inorderR b r).mp hb2))

/-! ## The reachable states: any fold of add over the empty set -/

def Inv (s : AVLSet α) : Prop :=
  BST s.root ∧ HeightsOk s.root ∧ (s.shouldBalance = true → Balanced s.root)

lemma add_root (s : AVLSet α) (x : α) :
    (add s x).root = (addR s.shouldBalance s.root x false).1 := rfl

lemma add_sb (s : AVLSet α) (x : α) :
    (add s x).shouldBalance = s.shouldBalance := rfl

lemma add_sz (s : AVLSet α) (x : α) :
    (add s x).sz =
      if (addR s.shouldBalance s.root x false).2 = true then s.sz else s.sz + 1 := rfl

lemma inv_mkAVL (sb : Bool) : Inv (mkAVL sb : AVLSet α) :=
  ⟨trivial, trivial, fun _ => trivial⟩

lemma inv_add (s : AVLSet α) (x : α) (hs : Inv s) : Inv (add s x) := by
  obtain ⟨h1, h2, h3⟩ := hs
  obtain ⟨a1, a2, a3, _⟩ := addR_main s.shouldBalance x s.root h1 h2 h3
  exact ⟨a1, a2, a3⟩

lemma inv_foldl : ∀ (xs : List α) (s : AVLSet α), Inv s → Inv (xs.foldl add s) := by
  intro xs
  induction xs with
  | nil => exact fun s hs => hs
  | cons x xs ih => exact fun s hs => ih (add s x) (inv_add s x hs)

lemma inv_build (sb : Bool) (xs : List α) : Inv (build sb xs : AVLSet α) :=
  inv_foldl xs (mkAVL sb) (inv_mkAVL sb)

lemma sb_foldl :
    ∀ (xs : List α) (s : AVLSet α), (xs.foldl add s).shouldBalance = s.shouldBalance := by
  intro xs
  induction xs with
  | nil => exact fun _ => rfl
  | cons x xs ih =>
    intro s
    rw [List.foldl_cons, ih (add s x), add_sb]

lemma mem_add (s : AVLSet α) (x y : α) :
    memT y (add s x).root ↔ y = x ∨ memT y s.root :=
  addR_mem s.shouldBalance x s.root false y

lemma mem_foldl : ∀ (xs : List α) (s : AVLSet α) (y : α),
    memT y ((xs.foldl add s).root) ↔ memT y s.root ∨ y ∈ xs := by
  intro xs
  induction xs with
  | nil => intro s y; simp
  | cons x xs ih =>
    intro s y
    simp only [List.foldl_cons, List.mem_cons]
    rw [ih (add s x) y, mem_add]
    tauto

lemma mem_build (sb : Bool) (xs : List α) (y : α) :
    memT y (build sb xs : AVLSet α).root ↔ y ∈ xs := by
  rw [build, mem_foldl]
  simp [mkAVL, memT]

lemma add_ex_iff (s : AVLSet α) (x : α) (hs : Inv s) :
    ((addR s.shouldBalance s.root x false).2 = true ↔ memT x s.root) := by
  obtain ⟨h1, h2, h3⟩ := hs
  exact (addR_main s.shouldBalance x s.root h1 h2 h3).2.2.2.2.2.1

lemma add_found (s : AVLSet α) (x : α) (hB : BST s.root) (hm : memT x s.root) :
    add s x = s := by
  have h := addR_found s.shouldBalance x s.root hB hm
  simp only [add, h, if_true]

/-! ## The size counter counts the distinct elements ever added -/

lemma build_append (sb : Bool) (xs : List α) (x : α) :
    build sb (xs ++ [x]) = add (build sb xs) x := by
  simp [build, List.foldl_append]

lemma sz_build (sb : Bool) :
    ∀ xs : List α, (build sb xs : AVLSet α).sz = (xs.toFinset.card : Int) := by
  intro xs
  induction xs using List.reverseRecOn with
  | nil => simp [build, mkAVL]
  | append_singleton xs x ih =>
    rw [build_append, add_sz]
    have hiff := add_ex_iff (build sb xs) x (inv_build sb xs)
    have hmem := mem_build sb xs x
    by_cases hx : x ∈ xs
    · rw [if_pos (hiff.mpr (hmem.mpr hx)), ih]
      have he : (xs ++ [x]).toFinset = xs.toFinset := by
        rw [List.toFinset_append]
        simp only [List.toFinset_cons, List.toFinset_nil, insert_emptyc_eq]
        exact Finset.union_eq_left.mpr
          (Finset.singleton_subset_iff.mpr (List.mem_toFinset.mpr hx))
      rw [he]
    · rw [if_neg (fun hc => hx (hmem.mp (hiff.mp hc))), ih]
      have he : (xs ++ [x]).toFinset = insert x xs.toFinset := by
        rw [List.toFinset_append]
        simp only [List.toFinset_cons, List.toFinset_nil, insert_emptyc_eq]
        rw [Finset.union_comm, ← Finset.insert_eq]
      rw [he, Finset.card_insert_of_not_mem (fun hc => hx (List.mem_toFinset.mp hc))]
      push_cast
      ring

/-! ## Without balancing, ascending insertion builds a right-leaning chain -/

def rightChain : Tree α → Prop
  | .nil => True
  | .node l r _ _ => l = Tree.nil ∧ rightChain r

lemma afterChild_noBal (x : α) (l r : Tree α) (v : α) (h : Int) :
    afterChild false x l r v h false =
      (.node l r v
        (if h < 1 + max (getHeight l) (getHeight r) then h + 1 else h), false) := by
  simp only [afterChild]
  rw [if_neg Bool.false_ne_true, if_neg (fun hc => Bool.false_ne_true hc.2)]

lemma addMax (x : α) : ∀ t : Tree α, rightChain t → HeightsOk t →
    ForallTree (fun y => y < x) t →
    (addR false t x false).2 = false ∧
    rightChain (addR false t x false).1 ∧
    HeightsOk (addR false t x false).1 ∧
    getHeight (addR false t x false).1 = getHeight t + 1 := by
  intro t
  induction t with
  | nil =>
    intro _ _ _
    exact ⟨rfl, ⟨rfl, trivial⟩, ⟨by simp [getHeight_nil], trivial, trivial⟩,
      by simp [addR, getHeight_nil, getHeight_node]⟩
  | node l r v h ihl ihr =>
    rintro ⟨hlnil, hrc⟩ ⟨hh, hHl, hHr⟩ ⟨hfl, hvx, hfr⟩
    subst hlnil
    have hrge : -1 ≤ getHeight r := heightsOk_ge r hHr
    obtain ⟨ih1, ih2, ih3, ih4⟩ := ihr hrc hHr hfr
    simp only [addR]
    rw [if_neg (ne_of_lt hvx), if_neg (lt_asymm hvx), ih1, afterChild_noBal]
    simp only [getHeight_nil] at hh
    refine ⟨rfl, ⟨rfl, ih2⟩, ⟨?_, trivial, ih3⟩, ?_⟩
    · simp only [getHeight_nil]
      split <;> omega
    · simp only [getHeight_nil, getHeight_node]
      split <;> omega

lemma chain_foldl : ∀ (xs : List α) (s : AVLSet α), s.shouldBalance = false →
    rightChain s.root → HeightsOk s.root →
    (∀ z ∈ xs, ForallTree (fun y => y < z) s.root) →
    List.Pairwise (fun a b => a < b) xs →
    getHeight (xs.foldl add s).root = getHeight s.root + xs.length := by
  intro xs
  induction xs with
  | nil =>
    intro s _ _ _ _ _
    simp
  | cons z zs ih =>
    intro s hsb hrc hH hlt hpw
    rw [List.pairwise_cons] at hpw
    obtain ⟨hz, hzs⟩ := hpw
    obtain ⟨a1, a2, a3, a4⟩ := addMax z s.root hrc hH (hlt z (List.mem_cons_self z zs))
    have hroot : (add s z).root = (addR false s.root z false).1 := by
      rw [add_root, hsb]
    have hsb2 : (add s z).shouldBalance = false := by rw [add_sb, hsb]
    have hfor : ∀ w ∈ zs, ForallTree (fun y => y < w) (add s z).root := by
      intro w hw
      rw [hroot]
      exact @forall_addR _ _ (fun y => y < w) false z (hz w hw) s.root false
        (hlt w (List.mem_cons_of_mem z hw))
    have h4 : getHeight (add s z).root = getHeight s.root + 1 := by
      rw [hroot]
      exact a4
    simp only [List.foldl_cons, List.length_cons]
    rw [ih (add s z) hsb2 (by rw [hroot]; exact a2) (by rw [hroot]; exact a3) hfor hzs, h4]
    push_cast
    ring

/-! ## With balancing disabled, addR is plain BST insertion: no rotation -/

lemma afterChild_plain_eq (x : α) (l r : Tree α) (v : α) (h : Int) (ex : Bool) :
    afterChild false x l r v h ex = afterChildPlain l r v h ex := by
  simp only [afterChild, afterChildPlain]
  by_cases hex : ex = true
  · rw [if_pos hex, if_pos hex]
  · rw [if_neg hex, if_neg hex, if_neg (fun hc => Bool.false_ne_true hc.2)]

lemma addR_false_plain : ∀ (t : Tree α) (x : α) (ex : Bool),
    addR false t x ex = addPlain t x ex := by
  intro t
  induction t with
  | nil => intro x ex; rfl
  | node l r v h ihl ihr =>
    intro x ex
    simp only [addR, addPlain]
    by_cases hvx : v = x
    · rw [if_pos hvx, if_pos hvx]
    · rw [if_neg hvx, if_neg hvx]
      by_cases hlt : x < v
      · rw [if_pos hlt, if_pos hlt, ihl, afterChild_plain_eq]
      · rw [if_neg hlt, if_neg hlt, ihr, afterChild_plain_eq]

/-! ## The claims -/

/-- Claim C1: the spec says every traversal of an empty tree invokes the
visitor zero times and cannot fault, and the empty state is reachable (it is
the initial state).  On the code, inorder on the empty set indeed visits
nothing, but preorder and postorder call their recursive helpers on the null
root and dereference it: a fault, modelled as none.  This theorem evaluates
the code at that failing input. -/
theorem c1_empty_traversals :
    preorder (mkAVL true : AVLSet Int) = none ∧
    postorder (mkAVL true : AVLSet Int) = none ∧
    inorder (mkAVL true : AVLSet Int) = [] ∧
    build true ([] : List Int) = mkAVL true :=
  ⟨rfl, rfl, rfl, rfl⟩

/-- Claim C2, counterexample: moving a populated set into a populated
destination by move assignment does not empty the source — the swap leaves
the destination's two old elements in the source, so it reports size 2 and
height 1, not size 0 and height -1. -/
theorem c2_counterexample :
    ¬ (size (moveAssign (build true [(10 : Int), 20]) (build true [(1 : Int)])).2 = 0 ∧
       height (moveAssign (build true [(10 : Int), 20]) (build true [(1 : Int)])).2 = -1) := by
  decide

/-- Claim C2, amended: after move construction the source reports size 0 and
height -1; after move assignment the members are swapped, so the source holds
exactly the destination's prior root, size and flag (hence it reports size 0
and height -1 only when the destination was previously empty), and the
destination holds the source's prior state. -/
theorem c2_amended (s d : AVLSet α) :
    size (moveConstruct s).2 = 0 ∧ height (moveConstruct s).2 = -1 ∧
    (moveAssign d s).2 = d ∧ (moveAssign d s).1 = s :=
  ⟨rfl, rfl, rfl, rfl⟩

/-- Claim C3: with balancing enabled, after every add call in any sequence of
add calls, every node's two child subtree heights differ by at most 1 — both
on the cached height fields and on the true recomputed heights (an absent
child counting as height -1). -/
theorem c3_balanced (xs : List α) :
    Balanced (build true xs : AVLSet α).root ∧
    BalancedReal (build true xs : AVLSet α).root := by
  obtain ⟨h1, h2, h3⟩ := inv_build true xs
  have hsb : (build true xs : AVLSet α).shouldBalance = true := by
    rw [build, sb_foldl]
    rfl
  have hb := h3 hsb
  exact ⟨hb, balancedReal_of _ h2 hb⟩

/-- Claim C4: for any sequence of add calls, with balancing enabled or
disabled, an inorder traversal visits a strictly increasing sequence whose
members are exactly the elements that were added. -/
theorem c4_inorder (sb : Bool) (xs : List α) :
    (inorder (build sb xs : AVLSet α)).Sorted (fun a b => a < b) ∧
    ∀ y : α, y ∈ inorder (build sb xs : AVLSet α) ↔ y ∈ xs := by
  obtain ⟨h1, _, _⟩ := inv_build sb xs
  refine ⟨sorted_inorderR _ h1, fun y => ?_⟩
  rw [inorder, mem_inorderR, mem_build]

/-- Claim C5: on every reachable tree, every node's cached height field
equals 1 + max of its children's heights (absent = -1), and height() returns
the root's cached height, or -1 when the tree is empty. -/
theorem c5_heights (sb : Bool) (xs : List α) :
    HeightsOk (build sb xs : AVLSet α).root ∧
    ∀ s : AVLSet α, height s =
      match s.root with
      | .nil => -1
      | .node _ _ _ hh => hh := by
  refine ⟨(inv_build sb xs).2.1, fun s => ?_⟩
  rw [height]
  cases hs : s.root with
  | nil => rfl
  | node a b c d => rfl

/-- Claim C6: size() equals the number of distinct elements passed to add so
far, and re-adding an element already in the set leaves size() unchanged. -/
theorem c6_size (sb : Bool) (xs : List α) :
    size (build sb xs : AVLSet α) = (xs.toFinset.card : Int) ∧
    ∀ x : α, x ∈ xs → size (add (build sb xs) x) = size (build sb xs) := by
  refine ⟨sz_build sb xs, fun x hx => ?_⟩
  rw [add_found (build sb xs) x (inv_build sb xs).1 ((mem_build sb xs x).mpr hx)]

/-- Witness for C6 at a concrete input: adds 1, 2, 2 then re-adds 2. -/
theorem c6_size_witness :
    size (add (build true [(1 : Int), 2, 2]) 2) = size (build true [(1 : Int), 2, 2]) ∧
    size (build true [(1 : Int), 2, 2]) = (([(1 : Int), 2, 2].toFinset.card : Int)) :=
  ⟨(c6_size true [(1 : Int), 2, 2]).2 2 (by decide), (c6_size true [(1 : Int), 2, 2]).1⟩

/-- Claim C7: add is idempotent — on any reachable state, adding an element
already stored returns the identical tree (same shape, values and cached
heights, so the identical AVLSet), and in particular add x twice equals add x
once. -/
theorem c7_add_idempotent (sb : Bool) (xs : List α) (x : α) :
    (x ∈ xs → add (build sb xs) x = build sb xs) ∧
    add (add (build sb xs) x) x = add (build sb xs) x := by
  constructor
  · intro hx
    exact add_found (build sb xs) x (inv_build sb xs).1 ((mem_build sb xs x).mpr hx)
  · have hinv := inv_add (build sb xs) x (inv_build sb xs)
    exact add_found (add (build sb xs) x) x hinv.1
      ((mem_add (build sb xs) x x).mpr (Or.inl rfl))

/-- Witness for C7 at a concrete input: re-adding 3 to the set built from
5, 3 changes nothing. -/
theorem c7_witness :
    add (build true [(5 : Int), 3]) 3 = build true [(5 : Int), 3] :=
  (c7_add_idempotent true [(5 : Int), 3] 3).1 (by decide)

/-- Claim C8: contains returns true exactly for the elements that were added
(the descent itself — left on strictly less, right on strictly greater, true
on equality, false on an absent child — is the definition of containsT). -/
theorem c8_contains (sb : Bool) (xs : List α) (x : α) :
    contains (build sb xs : AVLSet α) x = true ↔ x ∈ xs := by
  rw [contains, containsT_iff x _ (inv_build sb xs).1, mem_build]

/-- Claim C9: with balancing disabled, adding n distinct elements in strictly
ascending order yields height() = n - 1 (the right-leaning degenerate
chain). -/
theorem c9_unbalanced_ascending (xs : List α)
    (hasc : List.Chain' (fun a b => a < b) xs) :
    height (build false xs : AVLSet α) = (xs.length : Int) - 1 := by
  have hpw := List.chain'_iff_pairwise.mp hasc
  have h := chain_foldl xs (mkAVL false) rfl trivial trivial
    (fun z _ => trivial) hpw
  rw [height, build, h]
  have hnil : getHeight (mkAVL false : AVLSet α).root = -1 := rfl
  rw [hnil]
  omega

/-- Witness for C9 at a concrete input: 1, 2, 3 ascending, height 3 - 1. -/
theorem c9_witness :
    height (build false [(1 : Int), 2, 3]) = (([(1 : Int), 2, 3].length : Int)) - 1 :=
  c9_unbalanced_ascending [(1 : Int), 2, 3]
    (by norm_num [List.chain'_cons, List.chain'_singleton])

/-- Claim C10, counterexample: not every later operation on a move-constructed-
from source is defined — an immediate preorder (or postorder) traversal of the
moved-from source, here taken from a populated balanced set, dereferences the
null root exactly as in C1; the fault is modelled as none. -/
theorem c10_counterexample :
    preorder (moveConstruct (build true [(1 : Int), 2])).2 = none ∧
    postorder (moveConstruct (build true [(1 : Int), 2])).2 = none :=
  ⟨rfl, rfl⟩

/-- Claim C10, amended: after move construction the moved-from source is the
well-defined empty set whose balancing flag is false regardless of the flag it
was constructed with; its query operations are defined and report the empty
set (size 0, height -1, contains false, inorder visits nothing); the flag
stays false under any later adds, and with the flag false addR coincides with
plain non-rotating BST insertion (addPlain, modelled from the spec's "acts
like a binary search tree").  An immediate preorder or postorder traversal of
the still-empty source, however, faults on the null root — the C1 defect. -/
theorem c10_amended (s : AVLSet α) :
    (moveConstruct s).2 = mkAVL false ∧
    size (moveConstruct s).2 = 0 ∧
    height (moveConstruct s).2 = -1 ∧
    inorder (moveConstruct s).2 = [] ∧
    (∀ x : α, contains (moveConstruct s).2 x = false) ∧
    (∀ (t : Tree α) (x : α) (ex : Bool), addR false t x ex = addPlain t x ex) ∧
    ∀ xs : List α, (xs.foldl add (moveConstruct s).2).shouldBalance = false := by
  refine ⟨rfl, rfl, rfl, rfl, fun x => rfl, addR_false_plain, fun xs => ?_⟩
  rw [sb_foldl]
  rfl

end AVL
